import Mathlib

/-!
Verification of the description merge engine, diff reducer and generation
retry policy of the gemini-pr-description GitHub Action.

The TypeScript sources are shallowly embedded over `List Char`:

* `src/description.ts` : `getMarkers`, `hasGeneratedContent`,
  `parseDescription`, `wrapWithMarkers`, `shouldGenerate`, `applyUpdateMode`.
* `src/github.ts` : `truncatePatches`.
* `src/gemini.ts` : the retry loop of `generateDescription` and
  `isRetryableError`.

JavaScript string primitives (`indexOf`, `includes`, `substring`, `trim`,
`Array.prototype.join`, `Array.prototype.filter`, comparator-based `sort`)
are modelled explicitly below, and each embedded function mirrors the
corresponding TypeScript line by line.
-/

/-- JavaScript whitespace characters recognised by `String.prototype.trim`
(space, tab, line terminators, form/vertical feed, NBSP, BOM and the
Unicode line/paragraph separators). -/
def isJsWs (c : Char) : Bool :=
  c = ' ' || c = '\t' || c = '\n' || c = '\r' || c = '\x0b' || c = '\x0c' ||
  c = '\u00A0' || c = '\uFEFF' || c = '\u2028' || c = '\u2029'

/-- Remove trailing JavaScript whitespace. -/
def dropTrailingWs (s : List Char) : List Char :=
  (s.reverse.dropWhile isJsWs).reverse

/-- Model of `String.prototype.trim`: remove leading and trailing
JavaScript whitespace. -/
def trimList (s : List Char) : List Char :=
  dropTrailingWs (s.dropWhile isJsWs)

/-- Model of `hay.indexOf(pat)`: the least index at which `pat` occurs in
`hay` (`none` plays the role of JavaScript's `-1`). `jsIndexOf hay [] = some 0`,
as in JavaScript. -/
def jsIndexOf : List Char → List Char → Option Nat
  | [], pat => if pat.isPrefixOf [] then some 0 else none
  | c :: t, pat =>
    if pat.isPrefixOf (c :: t) then some 0 else (jsIndexOf t pat).map (· + 1)

/-- Model of `hay.includes(pat)`. -/
def jsIncludes (hay pat : List Char) : Bool :=
  (jsIndexOf hay pat).isSome

/-- Model of `s.substring(a, b)` for non-negative arguments: both indices
are clamped to the string length and swapped when out of order. -/
def jsSubstring (s : List Char) (a b : Nat) : List Char :=
  let a' := min a s.length
  let b' := min b s.length
  (s.take (max a' b')).drop (min a' b')

/-- Model of `parts.join(sep)` for an array of strings. -/
def joinSep (sep : List Char) : List (List Char) → List Char
  | [] => []
  | [x] => x
  | x :: y :: rest => x ++ sep ++ joinSep sep (y :: rest)

/-! ## src/description.ts -/

/-- `DEFAULT_MARKER` from `src/description.ts`. -/
def DEFAULT_MARKER : List Char := "<!-- gemini-pr-description -->".toList

/-- `END_MARKER_SUFFIX` from `src/description.ts`. -/
def END_MARKER_SUFFIX : List Char := "-end".toList

/-- Model of `marker.replace(/\s*-->$/, '')`: the regex matches exactly when
the string ends in `-->`, and the leftmost (anchored) match consists of the
final `-->` together with the maximal whitespace run directly before it, so
the replacement removes the final three characters and then all trailing
whitespace. -/
def stripCloseDelim (marker : List Char) : List Char :=
  if "-->".toList.isSuffixOf marker then
    dropTrailingWs (marker.take (marker.length - 3))
  else marker

/-- Result of `getMarkers`; the TypeScript field `end` is called `stop`
here because `end` is a reserved word in Lean. -/
structure MarkerPair where
  start : List Char
  stop : List Char
deriving DecidableEq

/-- `getMarkers` from `src/description.ts`:
`start = marker`, `end = baseMarker + END_MARKER_SUFFIX + " -->"` where
`baseMarker = marker.replace(/\s*-->$/, '').trim()`. -/
def getMarkers (marker : List Char) : MarkerPair :=
  let baseMarker := trimList (stripCloseDelim marker)
  ⟨marker, baseMarker ++ END_MARKER_SUFFIX ++ " -->".toList⟩

/-- `hasGeneratedContent` from `src/description.ts`. -/
def hasGeneratedContent (description marker : List Char) : Bool :=
  jsIncludes description (getMarkers marker).start &&
  jsIncludes description (getMarkers marker).stop

/-- Result record of `parseDescription`. -/
structure ParsedDescription where
  beforeMarker : List Char
  generatedContent : List Char
  afterMarker : List Char
deriving DecidableEq

/-- `parseDescription` from `src/description.ts`: the `some/some` branch
models `startIdx !== -1 && endIdx !== -1`, and `startIdx >= endIdx` is the
remaining degenerate condition. -/
def parseDescription (description marker : List Char) : ParsedDescription :=
  let mp := getMarkers marker
  match jsIndexOf description mp.start, jsIndexOf description mp.stop with
  | some startIdx, some endIdx =>
    if startIdx ≥ endIdx then ⟨description, [], []⟩
    else
      ⟨trimList (jsSubstring description 0 startIdx),
       trimList (jsSubstring description (startIdx + mp.start.length) endIdx),
       trimList (jsSubstring description (endIdx + mp.stop.length) description.length)⟩
  | _, _ => ⟨description, [], []⟩

/-- `wrapWithMarkers` from `src/description.ts`. -/
def wrapWithMarkers (content marker : List Char) : List Char :=
  let mp := getMarkers marker
  mp.start ++ "\n\n".toList ++ content ++ "\n\n".toList ++ mp.stop

/-- The closed `UpdateMode` union of `src/types.ts`. -/
inductive UpdateMode
  | empty
  | append
  | replace
  | smart
deriving DecidableEq

/-- Result record of `shouldGenerate`. -/
structure ShouldGenerateResult where
  shouldGenerate : Bool
  reason : List Char
deriving DecidableEq

/-- `shouldGenerate` from `src/description.ts` (the TypeScript `default`
switch arm is unreachable for the closed `UpdateMode` union). -/
def shouldGenerate (currentDescription : List Char) (updateMode : UpdateMode)
    (_marker : List Char) : ShouldGenerateResult :=
  let trimmedDescription := trimList currentDescription
  match updateMode with
  | .empty =>
    if trimmedDescription.length = 0 then
      ⟨true, "Description is empty".toList⟩
    else
      ⟨false, "Description is not empty (mode: empty)".toList⟩
  | .append => ⟨true, "Appending to existing description".toList⟩
  | .replace => ⟨true, "Replacing entire description".toList⟩
  | .smart => ⟨true, "Using smart mode with markers".toList⟩

/-- `applyUpdateMode` from `src/description.ts`. JavaScript string
truthiness (`if (existingDescription.trim())`) is the `≠ []` tests, and the
`filter(p => p.trim().length > 0)` predicate is modelled verbatim. -/
def applyUpdateMode (existingDescription generatedContent : List Char)
    (updateMode : UpdateMode) (marker : List Char) : List Char :=
  let wrappedContent := wrapWithMarkers generatedContent marker
  match updateMode with
  | .empty => wrappedContent
  | .append =>
    if trimList existingDescription ≠ [] then
      trimList existingDescription ++ "\n\n---\n\n".toList ++ wrappedContent
    else wrappedContent
  | .replace => wrappedContent
  | .smart =>
    if hasGeneratedContent existingDescription marker then
      let parsed := parseDescription existingDescription marker
      joinSep "\n\n".toList
        ([parsed.beforeMarker, wrappedContent, parsed.afterMarker].filter
          (fun p => decide (0 < (trimList p).length)))
    else if trimList existingDescription ≠ [] then
      trimList existingDescription ++ "\n\n".toList ++ wrappedContent
    else wrappedContent

/-! ## src/github.ts : the diff reducer -/

/-- The change kinds of `FileChange.status` in `src/types.ts`. -/
inductive FileStatus
  | added
  | removed
  | modified
  | renamed
  | copied
deriving DecidableEq

/-- `FileChange` from `src/types.ts` (`patch` is optional). -/
structure FileChange where
  filename : List Char
  status : FileStatus
  additions : Nat
  deletions : Nat
  patch : Option (List Char)
deriving DecidableEq

/-- `file.patch?.length || 0`. -/
def patchLen (f : FileChange) : Nat :=
  (f.patch.map List.length).getD 0

/-- Model of `a.localeCompare(b) <= 0` for filenames: code-point
lexicographic order. -/
def lexLe : List Char → List Char → Bool
  | [], _ => true
  | _ :: _, [] => false
  | a :: as, b :: bs => if a < b then true else if b < a then false else lexLe as bs

/-- The truncation sentinel appended to a truncated patch
(the template `` `${truncatedPatch}\n... (truncated)` `` minus the kept
prefix). -/
def truncationSentinel : List Char := "\n... (truncated)".toList

/-- The greedy allocation loop of `truncatePatches`: walks the files in
descending patch-size order threading `currentSize`. The middle branch is
the truncation case, where the JavaScript string truthiness of
`truncatedPatch` (undefined and the empty string are falsy) selects
between `undefined` and the sentinel-suffixed prefix. -/
def truncateLoop (maxDiffSize : Nat) : List FileChange → Nat → List FileChange
  | [], _ => []
  | file :: rest, currentSize =>
    let patchSize := patchLen file
    if currentSize + patchSize ≤ maxDiffSize then
      file :: truncateLoop maxDiffSize rest (currentSize + patchSize)
    else if currentSize < maxDiffSize then
      let remainingSpace := maxDiffSize - currentSize
      let truncatedPatch := file.patch.map (fun p => jsSubstring p 0 remainingSpace)
      { file with patch :=
          match truncatedPatch with
          | some p => if p.isEmpty then none else some (p ++ truncationSentinel)
          | none => none } :: truncateLoop maxDiffSize rest maxDiffSize
    else
      { file with patch := none } :: truncateLoop maxDiffSize rest currentSize

/-- `truncatePatches` from `src/github.ts`: sort by descending patch size
(`(b.patch?.length || 0) - (a.patch?.length || 0)` as comparator), run the
greedy loop from `currentSize = 0`, then re-sort by
`a.filename.localeCompare(b.filename)`. -/
def truncatePatches (files : List FileChange) (maxDiffSize : Nat) : List FileChange :=
  List.insertionSort (fun a b => lexLe a.filename b.filename = true)
    (truncateLoop maxDiffSize
      (List.insertionSort (fun a b => patchLen b ≤ patchLen a) files) 0)

/-- Input for the claim C3 counterexample: one modified file with a
30-character patch. -/
def cexFile : FileChange :=
  ⟨"a.txt".toList, .modified, 0, 0, some (List.replicate 30 'x')⟩

/-! ## src/gemini.ts : the generation retry loop -/

/-- Outcome of one underlying `model.generateContent` call, as seen inside
the `try` block: the promise may reject with an error message, resolve
with no response, or resolve with a response text. -/
inductive ApiResult
  | noResponse
  | response (text : List Char)
  | thrown (msg : List Char)

/-- Error message thrown when `result.response` is missing. -/
def noResponseMsg : List Char := "No response received from Gemini API".toList

/-- Error message thrown when the response text is empty or whitespace. -/
def emptyResponseMsg : List Char := "Empty response received from Gemini API".toList

/-- Fallback message for `lastError || new Error(...)` after the loop. -/
def exhaustedMsg : List Char :=
  "Failed to generate description after all retries".toList

/-- One iteration of the `try` block of `generateDescription`: the checks
`if (!response)` and `if (!text || text.trim().length === 0)` and the
final `return text.trim()`. -/
def oneAttempt (api : Nat → ApiResult) (attempt : Nat) : Except (List Char) (List Char) :=
  match api attempt with
  | .noResponse => .error noResponseMsg
  | .response t =>
    if (trimList t).length = 0 then .error emptyResponseMsg else .ok (trimList t)
  | .thrown m => .error m

/-- `isRetryableError` from `src/gemini.ts`: lower-case the message and
look for the rate-limit / 503 / timeout / 500 signatures. -/
def isRetryableError (msg : List Char) : Bool :=
  let message := msg.map Char.toLower
  jsIncludes message "rate limit".toList || jsIncludes message "quota".toList ||
  jsIncludes message "503".toList || jsIncludes message "service unavailable".toList ||
  jsIncludes message "timeout".toList || jsIncludes message "timed out".toList ||
  jsIncludes message "500".toList || jsIncludes message "internal server error".toList

/-- `maxRetries` from `src/gemini.ts`. -/
def maxRetries : Nat := 3

/-- Observable trace of one `generateDescription` run: the returned text or
thrown message, the number of attempts made, and the backoff sleeps
performed (in milliseconds, in order). -/
structure GenTrace where
  result : Except (List Char) (List Char)
  attemptsMade : Nat
  sleeps : List Nat

/-- The `for (let attempt = 1; attempt <= maxRetries; attempt++)` loop of
`generateDescription`, over the remaining attempt numbers: a success
returns immediately; a retryable error sleeps `2^attempt * 1000` ms when
`attempt < maxRetries` and continues; a non-retryable error is rethrown
immediately; an exhausted loop throws the last error. -/
def genLoopAux (api : Nat → ApiResult) :
    List Nat → Option (List Char) → Nat → List Nat → GenTrace
  | [], lastError, made, sleeps => ⟨.error (lastError.getD exhaustedMsg), made, sleeps⟩
  | attempt :: rest, _lastError, made, sleeps =>
    match oneAttempt api attempt with
    | .ok t => ⟨.ok t, made + 1, sleeps⟩
    | .error m =>
      if isRetryableError m then
        if attempt < maxRetries then
          genLoopAux api rest (some m) (made + 1) (sleeps ++ [2 ^ attempt * 1000])
        else genLoopAux api rest (some m) (made + 1) sleeps
      else ⟨.error m, made + 1, sleeps⟩

/-- The retry loop of `generateDescription` from `src/gemini.ts` run on the
attempt numbers 1, 2, 3 (`maxRetries = 3`). -/
def generateDescriptionModel (api : Nat → ApiResult) : GenTrace :=
  genLoopAux api [1, 2, 3] none 0 []

/-- Concrete transient-failure sequence for the claim C7 witness: every
call rejects with a rate-limit message. -/
def rateLimitedApi : Nat → ApiResult :=
  fun _ => .thrown "429 rate limit exceeded".toList

/-! ## Occurrence semantics for `jsIndexOf` and marker validity -/

/-- `pat` occurs in `hay` at position `p`. -/
def occursAt (hay pat : List Char) (p : Nat) : Prop :=
  pat <+: hay.drop p

/-- Characters allowed in the name part of a well-formed HTML-comment
marker (as in the default `gemini-pr-description`). -/
def isMarkerNameChar (c : Char) : Bool :=
  c.isAlphanum || c = '-'

/-- Opening delimiter of a well-formed base marker. -/
def markerOpen : List Char := "<!-- ".toList

/-- Closing delimiter of a well-formed base marker. -/
def markerClose : List Char := " -->".toList

/-- The suffix by which a derived end marker extends its base. -/
def endSuffixFull : List Char := "-end -->".toList

/-- A base marker in the expected delimiter format: `<!-- name -->` with a
non-empty name of alphanumeric-or-hyphen characters. -/
def validBaseMarker (m : List Char) : Prop :=
  ∃ name, m = markerOpen ++ name ++ markerClose ∧ name ≠ [] ∧
    ∀ c ∈ name, isMarkerNameChar c = true

/-- Marker used in the parse counterexamples: a well-formed base marker
with name `m`. -/
def cexMarker : List Char := "<!-- m -->".toList

/-- Document whose end marker occurs both before (index 0) and after
(index 25) the first start-marker occurrence (index 14). -/
def cexDoc : List Char :=
  "<!-- m-end -->".toList ++ "<!-- m -->".toList ++ ['X'] ++ "<!-- m-end -->".toList

/-- Document for the amended claim C4 witness: one start marker at index 2
and one end marker at index 15. -/
def c4doc : List Char := "A <!-- m --> G <!-- m-end --> B".toList

/-- The description contains a well-formed marker pair: both markers are
found and the first start occurrence lies strictly before the first end
occurrence (the non-degenerate branch of `parseDescription`). -/
def markersWellFormed (description marker : List Char) : Bool :=
  match jsIndexOf description (getMarkers marker).start,
      jsIndexOf description (getMarkers marker).stop with
  | some startIdx, some endIdx => decide (startIdx < endIdx)
  | _, _ => false

/-- Document for the claim C10 witness: whitespace-padded user text on
both sides of the marked block. -/
def c10doc : List Char := "  U  <!-- m --> G <!-- m-end -->  W  ".toList

/-- Claim C5: `shouldGenerate` returns `generate = true` exactly when the
mode is not `empty` or the trimmed description is empty; `append`,
`replace` and `smart` always generate. -/
theorem shouldGenerate_true_iff (d : List Char) (m : UpdateMode) (marker : List Char) :
    (shouldGenerate d m marker).shouldGenerate = true ↔
      (m ≠ UpdateMode.empty ∨ trimList d = []) := by
  cases m with
  | empty =>
    by_cases h : (trimList d).length = 0 <;>
      simp [shouldGenerate, h, ← List.length_eq_zero]
  | append => simp [shouldGenerate]
  | replace => simp [shouldGenerate]
  | smart => simp [shouldGenerate]

/-- Claim C6: in `append` mode the result is
`trim(existing) + "\n\n---\n\n" + wrapped` when the trimmed existing
description is non-empty, and just the wrapped content otherwise. -/
theorem applyUpdateMode_append_spec (existing gen marker : List Char) :
    (trimList existing ≠ [] →
      applyUpdateMode existing gen UpdateMode.append marker =
        trimList existing ++ "\n\n---\n\n".toList ++ wrapWithMarkers gen marker) ∧
    (trimList existing = [] →
      applyUpdateMode existing gen UpdateMode.append marker =
        wrapWithMarkers gen marker) := by
  constructor <;> intro h <;> simp [applyUpdateMode, h]

/-- Witness for claim C6 at the spec's end-to-end scenario 3: existing
description `"Hello"`, generated text `"World"`. -/
theorem applyUpdateMode_append_spec_witness :
    trimList "Hello".toList ≠ [] ∧
    applyUpdateMode "Hello".toList "World".toList UpdateMode.append DEFAULT_MARKER =
      trimList "Hello".toList ++ "\n\n---\n\n".toList ++
        wrapWithMarkers "World".toList DEFAULT_MARKER :=
  ⟨by decide,
   (applyUpdateMode_append_spec "Hello".toList "World".toList DEFAULT_MARKER).1
     (by decide)⟩

lemma take_clamp (s : List Char) (b : Nat) : s.take (min b s.length) = s.take b := by
  rcases Nat.le_total b s.length with h | h
  · rw [Nat.min_eq_left h]
  · rw [Nat.min_eq_right h, List.take_length, List.take_of_length_le h]

lemma drop_clamp (s : List Char) (a : Nat) : s.drop (min a s.length) = s.drop a := by
  rcases Nat.le_total a s.length with h | h
  · rw [Nat.min_eq_left h]
  · rw [Nat.min_eq_right h, List.drop_length, List.drop_of_length_le h]

lemma jsSubstring_zero_left (s : List Char) (b : Nat) : jsSubstring s 0 b = s.take b := by
  show (s.take (max (min 0 s.length) (min b s.length))).drop
      (min (min 0 s.length) (min b s.length)) = s.take b
  simp [take_clamp]

lemma truncateLoop_cons (m : Nat) (f : FileChange) (rest : List FileChange) (cs : Nat) :
    truncateLoop m (f :: rest) cs =
      if cs + patchLen f ≤ m then f :: truncateLoop m rest (cs + patchLen f)
      else if cs < m then
        { f with patch :=
            match f.patch.map (fun p => jsSubstring p 0 (m - cs)) with
            | some p => if p.isEmpty then none else some (p ++ truncationSentinel)
            | none => none } :: truncateLoop m rest m
      else { f with patch := none } :: truncateLoop m rest cs := rfl

lemma truncateLoop_sum_saturated (m : Nat) :
    ∀ (l : List FileChange) (cs : Nat), m ≤ cs →
      ((truncateLoop m l cs).map patchLen).sum = 0 := by
  intro l
  induction l with
  | nil => intro cs _; simp [truncateLoop]
  | cons f rest ih =>
    intro cs hcs
    by_cases h1 : cs + patchLen f ≤ m
    · have hp : patchLen f = 0 := by omega
      rw [truncateLoop_cons, if_pos h1]
      simp only [List.map_cons, List.sum_cons, hp, Nat.add_zero, Nat.zero_add]
      exact ih cs hcs
    · have h2 : ¬ cs < m := by omega
      rw [truncateLoop_cons, if_neg h1, if_neg h2]
      simp [patchLen, ih _ hcs]

lemma truncateLoop_sum_le (m : Nat) :
    ∀ (l : List FileChange) (cs : Nat), cs ≤ m →
      ((truncateLoop m l cs).map patchLen).sum + cs ≤ m + truncationSentinel.length := by
  intro l
  induction l with
  | nil => intro cs h; simp [truncateLoop]; omega
  | cons f rest ih =>
    intro cs hcs
    by_cases h1 : cs + patchLen f ≤ m
    · have := ih (cs + patchLen f) h1
      rw [truncateLoop_cons, if_pos h1]
      simp only [List.map_cons, List.sum_cons]
      omega
    · by_cases h2 : cs < m
      · have hrest := truncateLoop_sum_saturated m rest m (le_refl m)
        have hbound : patchLen
            { f with patch :=
                match f.patch.map (fun p => jsSubstring p 0 (m - cs)) with
                | some p => if p.isEmpty then none else some (p ++ truncationSentinel)
                | none => none } ≤ (m - cs) + truncationSentinel.length := by
          cases hp : f.patch with
          | none => simp [patchLen]
          | some p =>
            by_cases he : (jsSubstring p 0 (m - cs)).isEmpty
            · simp [patchLen, hp, he]
            · simp only [patchLen, hp, Option.map_some', if_neg he]
              have : (jsSubstring p 0 (m - cs)).length ≤ m - cs := by
                rw [jsSubstring_zero_left]
                simp [List.length_take]
              simp only [Option.getD_some, Option.map_some', List.length_append]
              omega
        rw [truncateLoop_cons, if_neg h1, if_pos h2]
        simp only [List.map_cons, List.sum_cons, hrest]
        omega
      · have := ih cs hcs
        rw [truncateLoop_cons, if_neg h1, if_neg h2]
        simp only [List.map_cons, List.sum_cons]
        have hz : patchLen { f with patch := none } = 0 := by simp [patchLen]
        omega

/-- Claim C3 counterexample: with budget 10, the kept 10-character prefix
plus the 16-character truncation sentinel gives an output patch total of
26, which exceeds the budget — the sentinel does not fit the budget. -/
theorem truncatePatches_budget_cex :
    ((truncatePatches [cexFile] 10).map patchLen).sum = 26 ∧ ¬ (26 ≤ 10) := by
  constructor
  · decide
  · omega

/-- Claim C3 (amended): for every list of file changes and every budget,
the sum of the included patch lengths exceeds the budget by at most the
length of the truncation sentinel `"\n... (truncated)"` (16 characters):
the kept prefix alone fills at most the remaining budget, and only the
sentinel can overshoot. -/
theorem truncatePatches_sum_bound (files : List FileChange) (maxDiffSize : Nat) :
    ((truncatePatches files maxDiffSize).map patchLen).sum ≤
      maxDiffSize + truncationSentinel.length := by
  have hperm :
      List.Perm
        ((truncatePatches files maxDiffSize).map patchLen)
        ((truncateLoop maxDiffSize
            (List.insertionSort (fun a b => patchLen b ≤ patchLen a) files) 0).map patchLen) :=
    (List.perm_insertionSort _ _).map _
  rw [hperm.sum_eq]
  have := truncateLoop_sum_le maxDiffSize
    (List.insertionSort (fun a b => patchLen b ≤ patchLen a) files) 0 (Nat.zero_le _)
  omega

lemma lexLe_total : ∀ a b : List Char, lexLe a b = true ∨ lexLe b a = true := by
  intro a
  induction a with
  | nil => intro b; left; rfl
  | cons x xs ih =>
    intro b
    cases b with
    | nil => right; rfl
    | cons y ys =>
      rcases lt_trichotomy x y with h | h | h
      · left; simp [lexLe, h]
      · subst h
        rcases ih ys with h' | h'
        · left; simp [lexLe, h']
        · right; simp [lexLe, h']
      · right; simp [lexLe, h]

lemma lexLe_trans :
    ∀ a b c : List Char, lexLe a b = true → lexLe b c = true → lexLe a c = true := by
  intro a
  induction a with
  | nil => intros; rfl
  | cons x xs ih =>
    intro b c hab hbc
    cases b with
    | nil => simp [lexLe] at hab
    | cons y ys =>
      cases c with
      | nil => simp [lexLe] at hbc
      | cons z zs =>
        rcases lt_trichotomy x y with h1 | h1 | h1
        · rcases lt_trichotomy y z with h2 | h2 | h2
          · simp [lexLe, lt_trans h1 h2]
          · subst h2; simp [lexLe, h1]
          · simp [lexLe, h2, asymm h2] at hbc
        · subst h1
          simp only [lexLe, lt_self_iff_false, if_false] at hab
          rcases lt_trichotomy x z with h2 | h2 | h2
          · simp [lexLe, h2]
          · subst h2
            simp only [lexLe, lt_self_iff_false, if_false] at hbc ⊢
            exact ih ys zs hab hbc
          · simp [lexLe, h2, asymm h2] at hbc
        · simp [lexLe, h1, asymm h1] at hab

lemma truncateLoop_map_filename (m : Nat) :
    ∀ (l : List FileChange) (cs : Nat),
      (truncateLoop m l cs).map (fun f => f.filename) = l.map (fun f => f.filename) := by
  intro l
  induction l with
  | nil => intro cs; simp [truncateLoop]
  | cons f rest ih =>
    intro cs
    by_cases h1 : cs + patchLen f ≤ m
    · rw [truncateLoop_cons, if_pos h1]; simp [ih]
    · by_cases h2 : cs < m
      · rw [truncateLoop_cons, if_neg h1, if_pos h2]; simp [ih]
      · rw [truncateLoop_cons, if_neg h1, if_neg h2]; simp [ih]

/-- Claim C8: the diff reducer keeps exactly the input filenames (as a
multiset, so none is dropped or added) and emits them sorted
lexicographically by filename, regardless of the input order. -/
theorem truncatePatches_fileset_and_order (files : List FileChange) (maxDiffSize : Nat) :
    List.Perm ((truncatePatches files maxDiffSize).map (fun f => f.filename))
      (files.map (fun f => f.filename)) ∧
    List.Pairwise (fun a b : List Char => lexLe a b = true)
      ((truncatePatches files maxDiffSize).map (fun f => f.filename)) := by
  constructor
  · have h1 :
        List.Perm ((truncatePatches files maxDiffSize).map (fun f => f.filename))
          ((truncateLoop maxDiffSize
              (List.insertionSort (fun a b => patchLen b ≤ patchLen a) files) 0).map
            (fun f => f.filename)) :=
      (List.perm_insertionSort _ _).map _
    rw [truncateLoop_map_filename] at h1
    exact h1.trans ((List.perm_insertionSort _ _).map _)
  · haveI : IsTotal FileChange (fun a b => lexLe a.filename b.filename = true) :=
      ⟨fun a b => lexLe_total a.filename b.filename⟩
    haveI : IsTrans FileChange (fun a b => lexLe a.filename b.filename = true) :=
      ⟨fun a b c => lexLe_trans a.filename b.filename c.filename⟩
    have hs :
        List.Sorted (fun a b : FileChange => lexLe a.filename b.filename = true)
          (truncatePatches files maxDiffSize) :=
      List.sorted_insertionSort _ _
    exact List.pairwise_map.mpr hs

lemma genLoopAux_attempts_le (api : Nat → ApiResult) :
    ∀ (l : List Nat) (lastErr : Option (List Char)) (made : Nat) (sleeps : List Nat),
      (genLoopAux api l lastErr made sleeps).attemptsMade ≤ made + l.length := by
  intro l
  induction l with
  | nil => intro lastErr made sleeps; simp [genLoopAux]
  | cons a rest ih =>
    intro lastErr made sleeps
    rcases h : oneAttempt api a with m | t
    · cases hr : isRetryableError m
      · simp only [genLoopAux, h, hr, Bool.false_eq_true, if_false, List.length_cons]
        omega
      · by_cases ha : a < maxRetries
        · simp only [genLoopAux, h, hr, if_pos ha, if_true, List.length_cons]
          have := ih (some m) (made + 1) (sleeps ++ [2 ^ a * 1000])
          omega
        · simp only [genLoopAux, h, hr, if_neg ha, if_true, List.length_cons]
          have := ih (some m) (made + 1) sleeps
          omega
    · simp only [genLoopAux, h, List.length_cons]
      omega

lemma genLoopAux_sleeps (api : Nat → ApiResult) :
    ∀ (l : List Nat) (lastErr : Option (List Char)) (made : Nat) (sleeps : List Nat),
      ∃ extra, (genLoopAux api l lastErr made sleeps).sleeps = sleeps ++ extra ∧
        extra <+: (l.filter (fun a => decide (a < maxRetries))).map (fun a => 2 ^ a * 1000) := by
  intro l
  induction l with
  | nil =>
    intro lastErr made sleeps
    exact ⟨[], by simp [genLoopAux]⟩
  | cons a rest ih =>
    intro lastErr made sleeps
    rcases h : oneAttempt api a with m | t
    · cases hr : isRetryableError m
      · refine ⟨[], ?_⟩
        simp [genLoopAux, h, hr]
      · by_cases ha : a < maxRetries
        · obtain ⟨extra, he, hp⟩ := ih (some m) (made + 1) (sleeps ++ [2 ^ a * 1000])
          refine ⟨2 ^ a * 1000 :: extra, ?_, ?_⟩
          · simp only [genLoopAux, h, hr, if_pos ha, if_true, he, List.append_assoc,
              List.singleton_append]
          · have hfc : (a :: rest).filter (fun x => decide (x < maxRetries)) =
                a :: rest.filter (fun x => decide (x < maxRetries)) := by
              simp [List.filter_cons, ha]
            rw [hfc, List.map_cons]
            exact List.cons_prefix_cons.mpr ⟨rfl, hp⟩
        · obtain ⟨extra, he, hp⟩ := ih (some m) (made + 1) sleeps
          refine ⟨extra, ?_, ?_⟩
          · simp only [genLoopAux, h, hr, if_neg ha, if_true, he]
          · have hfc : (a :: rest).filter (fun x => decide (x < maxRetries)) =
                rest.filter (fun x => decide (x < maxRetries)) := by
              simp [List.filter_cons, ha]
            rw [hfc]
            exact hp
    · refine ⟨[], ?_⟩
      simp [genLoopAux, h]

/-- Claim C7: the retry loop makes at most 3 attempts; the backoff sleeps
are always an initial segment of the doubling sequence 2000 ms, 4000 ms; a
non-retryable first error (an empty response included) is rethrown
immediately after one attempt with no sleep; and three retryable errors
exhaust the ceiling and surface the last error after backoffs of 2000 ms
and 4000 ms. -/
theorem generateDescription_retry_spec (api : Nat → ApiResult) :
    (generateDescriptionModel api).attemptsMade ≤ 3 ∧
    (generateDescriptionModel api).sleeps <+: [2000, 4000] ∧
    (∀ m, oneAttempt api 1 = .error m → isRetryableError m = false →
      generateDescriptionModel api = ⟨.error m, 1, []⟩) ∧
    (api 1 = .response [] → generateDescriptionModel api = ⟨.error emptyResponseMsg, 1, []⟩) ∧
    (∀ m1 m2 m3, oneAttempt api 1 = .error m1 → oneAttempt api 2 = .error m2 →
      oneAttempt api 3 = .error m3 → isRetryableError m1 = true →
      isRetryableError m2 = true → isRetryableError m3 = true →
      generateDescriptionModel api = ⟨.error m3, 3, [2000, 4000]⟩) := by
  refine ⟨?_, ?_, ?_, ?_, ?_⟩
  · exact genLoopAux_attempts_le api [1, 2, 3] none 0 []
  · obtain ⟨extra, he, hp⟩ := genLoopAux_sleeps api [1, 2, 3] none 0 []
    unfold generateDescriptionModel
    rw [he, List.nil_append]
    have : ([1, 2, 3].filter (fun a => decide (a < maxRetries))).map
        (fun a => 2 ^ a * 1000) = [2000, 4000] := by decide
    rwa [this] at hp
  · intro m h1 hr
    unfold generateDescriptionModel
    simp [genLoopAux, h1, hr]
  · intro h1
    have h : oneAttempt api 1 = .error emptyResponseMsg := by
      simp [oneAttempt, h1, trimList, dropTrailingWs]
    have hr : isRetryableError emptyResponseMsg = false := by decide
    unfold generateDescriptionModel
    simp [genLoopAux, h, hr]
  · intro m1 m2 m3 h1 h2 h3 hr1 hr2 hr3
    unfold generateDescriptionModel
    simp [genLoopAux, h1, h2, h3, hr1, hr2, hr3, maxRetries]

/-- Witness for claim C7: three rate-limited attempts exhaust the ceiling
with backoffs 2000 ms and 4000 ms and surface the last error. -/
theorem generateDescription_retry_spec_witness :
    generateDescriptionModel rateLimitedApi =
      ⟨.error "429 rate limit exceeded".toList, 3, [2000, 4000]⟩ :=
  (generateDescription_retry_spec rateLimitedApi).2.2.2.2
    "429 rate limit exceeded".toList "429 rate limit exceeded".toList
    "429 rate limit exceeded".toList rfl rfl rfl (by decide) (by decide) (by decide)

lemma jsIndexOf_eq_some_iff (pat : List Char) :
    ∀ (hay : List Char) (n : Nat),
      jsIndexOf hay pat = some n ↔
        (occursAt hay pat n ∧ ∀ m, m < n → ¬ occursAt hay pat m) := by
  intro hay
  induction hay with
  | nil =>
    intro n
    unfold jsIndexOf occursAt
    by_cases h : pat.isPrefixOf ([] : List Char)
    · rw [if_pos h]
      have hp : pat <+: ([] : List Char) := List.isPrefixOf_iff_prefix.mp h
      constructor
      · rintro ⟨rfl⟩
        exact ⟨by simpa using hp, by omega⟩
      · rintro ⟨_, hmin⟩
        by_contra hne
        have hn : 0 < n := by
          rcases Nat.eq_zero_or_pos n with h0 | h0
          · exact absurd (congrArg some h0.symm ▸ rfl) hne
          · exact h0
        exact hmin 0 hn (by simpa using hp)
    · rw [if_neg h]
      have hp : ¬ pat <+: ([] : List Char) := fun hc => h (List.isPrefixOf_iff_prefix.mpr hc)
      constructor
      · rintro ⟨⟩
      · rintro ⟨hocc, -⟩
        exact absurd (by simpa using hocc) hp
  | cons c t ih =>
    intro n
    unfold jsIndexOf occursAt
    by_cases h : pat.isPrefixOf (c :: t)
    · rw [if_pos h]
      have hp : pat <+: (c :: t) := List.isPrefixOf_iff_prefix.mp h
      constructor
      · rintro ⟨rfl⟩
        exact ⟨by simpa using hp, by omega⟩
      · rintro ⟨_, hmin⟩
        by_contra hne
        have hn : 0 < n := by
          rcases Nat.eq_zero_or_pos n with h0 | h0
          · exact absurd (congrArg some h0.symm ▸ rfl) hne
          · exact h0
        exact hmin 0 hn (by simpa using hp)
    · rw [if_neg h]
      have hp : ¬ pat <+: (c :: t) := fun hc => h (List.isPrefixOf_iff_prefix.mpr hc)
      constructor
      · intro hmap
        obtain ⟨k, hk, rfl⟩ := Option.map_eq_some'.mp hmap
        obtain ⟨hocc, hmin⟩ := (ih k).mp hk
        refine ⟨by simpa using hocc, ?_⟩
        intro m hm
        cases m with
        | zero => simpa using hp
        | succ j =>
          have := hmin j (by omega)
          simpa using this
      · rintro ⟨hocc, hmin⟩
        cases n with
        | zero => exact absurd (by simpa using hocc) hp
        | succ k =>
          have hk : jsIndexOf t pat = some k := by
            refine (ih k).mpr ⟨by simpa using hocc, ?_⟩
            intro m hm
            have := hmin (m + 1) (by omega)
            simpa using this
          simp [hk]

lemma jsIndexOf_eq_none_iff (pat : List Char) :
    ∀ hay : List Char, jsIndexOf hay pat = none ↔ ∀ n, ¬ occursAt hay pat n := by
  intro hay
  induction hay with
  | nil =>
    unfold jsIndexOf occursAt
    by_cases h : pat.isPrefixOf ([] : List Char)
    · rw [if_pos h]
      have hp : pat <+: ([] : List Char) := List.isPrefixOf_iff_prefix.mp h
      constructor
      · rintro ⟨⟩
      · intro hall
        exact absurd (by simpa using hp) (hall 0)
    · rw [if_neg h]
      have hp : ¬ pat <+: ([] : List Char) := fun hc => h (List.isPrefixOf_iff_prefix.mpr hc)
      refine iff_of_true rfl ?_
      intro n hocc
      exact hp (by simpa using hocc)
  | cons c t ih =>
    unfold jsIndexOf occursAt
    by_cases h : pat.isPrefixOf (c :: t)
    · rw [if_pos h]
      have hp : pat <+: (c :: t) := List.isPrefixOf_iff_prefix.mp h
      constructor
      · rintro ⟨⟩
      · intro hall
        exact absurd (by simpa using hp) (hall 0)
    · rw [if_neg h]
      have hp : ¬ pat <+: (c :: t) := fun hc => h (List.isPrefixOf_iff_prefix.mpr hc)
      constructor
      · intro hmap n
        have ht : jsIndexOf t pat = none := by
          cases hjt : jsIndexOf t pat with
          | none => rfl
          | some k => rw [hjt] at hmap; simp at hmap
        have hall := (ih).mp ht
        cases n with
        | zero => simpa using hp
        | succ j => simpa using hall j
      · intro hall
        have ht : jsIndexOf t pat = none := by
          refine (ih).mpr ?_
          intro j hocc
          exact hall (j + 1) (by simpa using hocc)
        simp [ht]

lemma mem_of_isJsWs {c : Char} (h : isJsWs c = true) :
    c ∈ [' ', '\t', '\n', '\r', '\x0b', '\x0c', '\u00A0', '\uFEFF', '\u2028', '\u2029'] := by
  simp only [isJsWs, Bool.or_eq_true, decide_eq_true_eq] at h
  simp only [List.mem_cons, List.not_mem_nil, or_false]
  tauto

lemma not_ws_of_markerNameChar {c : Char} (h : isMarkerNameChar c = true) :
    isJsWs c = false := by
  cases hws : isJsWs c
  · rfl
  · exfalso
    have hc := mem_of_isJsWs hws
    fin_cases hc <;> exact absurd h (by decide)

lemma dropWhile_append_of_all {p : Char → Bool} {u t : List Char}
    (h : ∀ c ∈ u, p c = true) : (u ++ t).dropWhile p = t.dropWhile p := by
  induction u with
  | nil => rfl
  | cons c u' ih =>
    rw [List.cons_append, List.dropWhile_cons, if_pos (h c (by simp))]
    exact ih (fun x hx => h x (by simp [hx]))

lemma dropWhile_cons_of_neg {p : Char → Bool} {c : Char} {t : List Char}
    (h : p c = false) : (c :: t).dropWhile p = c :: t := by
  rw [List.dropWhile_cons, if_neg (by simp [h])]

lemma dropTrailingWs_snoc_of_neg {s : List Char} {c : Char} (h : isJsWs c = false) :
    dropTrailingWs (s ++ [c]) = s ++ [c] := by
  rw [dropTrailingWs, List.reverse_append, List.reverse_singleton, List.singleton_append,
    dropWhile_cons_of_neg h]
  simp

lemma dropTrailingWs_eq_self {s : List Char} (hne : s ≠ [])
    (hl : isJsWs (s.getLast hne) = false) : dropTrailingWs s = s := by
  conv_lhs => rw [← List.dropLast_append_getLast hne]
  rw [dropTrailingWs_snoc_of_neg hl, List.dropLast_append_getLast]

lemma trimList_eq_self {s : List Char} (hne : s ≠ [])
    (hh : isJsWs (s.head hne) = false) (hl : isJsWs (s.getLast hne) = false) :
    trimList s = s := by
  obtain ⟨c, t, rfl⟩ := List.exists_cons_of_ne_nil hne
  rw [trimList, dropWhile_cons_of_neg (by simpa using hh)]
  exact dropTrailingWs_eq_self hne hl

lemma getMarkers_valid (name : List Char) (h1 : name ≠ [])
    (h2 : ∀ c ∈ name, isMarkerNameChar c = true) :
    getMarkers (markerOpen ++ name ++ markerClose) =
      ⟨markerOpen ++ name ++ markerClose, markerOpen ++ name ++ endSuffixFull⟩ := by
  have hlastmem : name.getLast h1 ∈ name := List.getLast_mem h1
  have hlast : isJsWs (name.getLast h1) = false :=
    not_ws_of_markerNameChar (h2 _ hlastmem)
  have hne2 : markerOpen ++ name ≠ [] := by simp [markerOpen]
  have hlast2 : isJsWs ((markerOpen ++ name).getLast hne2) = false := by
    have := List.getLast_append' markerOpen name h1
    rw [show (markerOpen ++ name).getLast hne2 = name.getLast h1 from this]
    exact hlast
  have hsplit : markerOpen ++ name ++ markerClose =
      (markerOpen ++ name ++ [' ']) ++ "-->".toList := by
    simp [markerOpen, markerClose]
  have hsuffix : "-->".toList.isSuffixOf (markerOpen ++ name ++ markerClose) = true := by
    rw [hsplit]
    exact List.isSuffixOf_iff_suffix.mpr (List.suffix_append _ _)
  have hlen : (markerOpen ++ name ++ markerClose).length - 3 =
      (markerOpen ++ name ++ [' ']).length := by
    simp [markerOpen, markerClose]
  have htake : (markerOpen ++ name ++ markerClose).take
      ((markerOpen ++ name ++ markerClose).length - 3) = markerOpen ++ name ++ [' '] := by
    rw [hlen, hsplit, List.take_left]
  have hstrip : stripCloseDelim (markerOpen ++ name ++ markerClose) = markerOpen ++ name := by
    rw [stripCloseDelim, if_pos hsuffix, htake]
    rw [show markerOpen ++ name ++ [' '] = (markerOpen ++ name) ++ [' '] from rfl]
    rw [dropTrailingWs, List.reverse_append, List.reverse_singleton, List.singleton_append,
      List.dropWhile_cons, if_pos (by decide : isJsWs ' ' = true)]
    rw [show (List.dropWhile isJsWs (markerOpen ++ name).reverse).reverse =
      dropTrailingWs (markerOpen ++ name) from rfl]
    exact dropTrailingWs_eq_self hne2 hlast2
  have hbase : trimList (stripCloseDelim (markerOpen ++ name ++ markerClose)) =
      markerOpen ++ name := by
    rw [hstrip]
    refine trimList_eq_self hne2 ?_ hlast2
    have hhead : (markerOpen ++ name).head hne2 = '<' := by simp [markerOpen]
    rw [hhead]
    decide
  show MarkerPair.mk _ _ = _
  rw [hbase]
  have hsfx : END_MARKER_SUFFIX ++ " -->".toList = endSuffixFull := by decide
  rw [List.append_assoc (markerOpen ++ name), hsfx]

/-- Claim C9 counterexample: `getMarkers` accepts the base marker `"X"`,
which is not in the delimiter format, without rejection or sanitization,
and the derived end marker `"X-end -->"` then has the start marker `"X"`
as a proper prefix — an ambiguous configuration. -/
theorem getMarkers_collision_cex :
    (getMarkers ['X']).start <+: (getMarkers ['X']).stop ∧
    (getMarkers ['X']).start ≠ (getMarkers ['X']).stop ∧
    (getMarkers ['X']).stop = 'X' :: "-end -->".toList :=
  ⟨List.isPrefixOf_iff_prefix.mp (by decide), by decide, by decide⟩

/-- Claim C9 (amended): for a base marker in the expected delimiter format
`<!-- name -->` (non-empty alphanumeric-or-hyphen name) the derived end
marker never equals the start marker and neither is an infix (hence
neither a prefix nor a suffix) of the other; but `getMarkers` itself never
rejects or sanitizes any configuration, and a base marker outside this
format can produce colliding markers. -/
theorem getMarkers_valid_separation (marker : List Char) (hm : validBaseMarker marker) :
    (getMarkers marker).start ≠ (getMarkers marker).stop ∧
    ¬ (getMarkers marker).start <:+: (getMarkers marker).stop ∧
    ¬ (getMarkers marker).stop <:+: (getMarkers marker).start := by
  obtain ⟨name, rfl, h1, h2⟩ := hm
  rw [getMarkers_valid name h1 h2]
  refine ⟨?_, ?_, ?_⟩
  · intro h
    have := congrArg List.length h
    simp [markerOpen, markerClose, endSuffixFull] at this
  · rintro ⟨u, v, huv⟩
    cases u with
    | nil =>
      simp only [List.nil_append] at huv
      have hc2 : (markerOpen ++ name) ++ (markerClose ++ v) =
          (markerOpen ++ name) ++ endSuffixFull := by
        simpa [List.append_assoc] using huv
      have hcv : endSuffixFull = markerClose ++ v :=
        (List.append_cancel_left hc2).symm
      have hpre : markerClose.isPrefixOf endSuffixFull = true :=
        List.isPrefixOf_iff_prefix.mpr ⟨v, hcv.symm⟩
      exact absurd hpre (by decide)
    | cons a u' =>
      have hstop : markerOpen ++ name ++ endSuffixFull =
          '<' :: ("!-- ".toList ++ name ++ endSuffixFull) := by
        simp [markerOpen]
      rw [hstop] at huv
      simp only [List.cons_append, List.cons.injEq] at huv
      obtain ⟨-, htail⟩ := huv
      have hmem : '<' ∈ u' ++ (markerOpen ++ name ++ markerClose) ++ v := by
        have : '<' ∈ markerOpen ++ name ++ markerClose := by simp [markerOpen]
        simp only [List.mem_append]
        tauto
      rw [htail] at hmem
      simp only [List.mem_append] at hmem
      rcases hmem with (hmem | hmem) | hmem
      · exact absurd hmem (by decide)
      · exact absurd (h2 '<' hmem) (by decide)
      · exact absurd hmem (by decide)
  · intro h
    have := h.length_le
    simp [markerOpen, markerClose, endSuffixFull] at this

/-- Witness for the amended claim C9 at the default marker
`<!-- gemini-pr-description -->`. -/
theorem getMarkers_valid_separation_witness :
    (getMarkers DEFAULT_MARKER).start ≠ (getMarkers DEFAULT_MARKER).stop ∧
    ¬ (getMarkers DEFAULT_MARKER).start <:+: (getMarkers DEFAULT_MARKER).stop ∧
    ¬ (getMarkers DEFAULT_MARKER).stop <:+: (getMarkers DEFAULT_MARKER).start :=
  getMarkers_valid_separation DEFAULT_MARKER
    ⟨"gemini-pr-description".toList, by decide, by decide, by decide⟩

lemma jsSubstring_to_len (s : List Char) (a : Nat) : jsSubstring s a s.length = s.drop a := by
  show (s.take (max (min a s.length) (min s.length s.length))).drop
      (min (min a s.length) (min s.length s.length)) = s.drop a
  rw [Nat.min_self]
  rw [Nat.max_eq_right (Nat.min_le_right a s.length),
    Nat.min_eq_left (Nat.min_le_right a s.length), List.take_length, drop_clamp]

/-- Claim C4 counterexample: in `cexDoc` the start marker first occurs at
index 14 and the end marker also occurs at index 25, strictly after it, so
the claim predicts a split there with generated content `"X"`; the code
instead compares the globally-first end occurrence (index 0) with the
start and returns the degenerate split. -/
theorem parseDescription_end_before_start_cex :
    jsIndexOf cexDoc (getMarkers cexMarker).start = some 14 ∧
    occursAt cexDoc (getMarkers cexMarker).stop 25 ∧
    trimList (jsSubstring cexDoc (14 + (getMarkers cexMarker).start.length) 25) = ['X'] ∧
    parseDescription cexDoc cexMarker = ⟨cexDoc, [], []⟩ :=
  ⟨by decide, List.isPrefixOf_iff_prefix.mp (by decide), by decide, by decide⟩

/-- Claim C4 (amended): `parseDescription` splits at the first occurrence
of the start marker and the globally first occurrence of the end marker —
not the first end occurrence after the start. If either marker is missing,
or the first end occurrence is at or before the first start occurrence,
the degenerate split is returned; in particular a document whose end
marker appears both before and after the start marker yields the
degenerate split. -/
theorem parseDescription_occurrence_spec (description marker : List Char) :
    (((∀ p, ¬ occursAt description (getMarkers marker).start p) ∨
      (∀ p, ¬ occursAt description (getMarkers marker).stop p)) →
      parseDescription description marker = ⟨description, [], []⟩) ∧
    (∀ si ei,
      (occursAt description (getMarkers marker).start si ∧
        ∀ m, m < si → ¬ occursAt description (getMarkers marker).start m) →
      (occursAt description (getMarkers marker).stop ei ∧
        ∀ m, m < ei → ¬ occursAt description (getMarkers marker).stop m) →
      ((ei ≤ si → parseDescription description marker = ⟨description, [], []⟩) ∧
       (si < ei → parseDescription description marker =
          ⟨trimList (description.take si),
           trimList (jsSubstring description
             (si + (getMarkers marker).start.length) ei),
           trimList (description.drop (ei + (getMarkers marker).stop.length))⟩))) := by
  constructor
  · intro h
    rcases h with h | h
    · have hn : jsIndexOf description (getMarkers marker).start = none :=
        (jsIndexOf_eq_none_iff _ _).mpr h
      simp [parseDescription, hn]
    · have hn : jsIndexOf description (getMarkers marker).stop = none :=
        (jsIndexOf_eq_none_iff _ _).mpr h
      cases hs : jsIndexOf description (getMarkers marker).start with
      | none => simp [parseDescription, hs, hn]
      | some si => simp [parseDescription, hs, hn]
  · intro si ei hsi hei
    have hs : jsIndexOf description (getMarkers marker).start = some si :=
      (jsIndexOf_eq_some_iff _ _ _).mpr hsi
    have he : jsIndexOf description (getMarkers marker).stop = some ei :=
      (jsIndexOf_eq_some_iff _ _ _).mpr hei
    constructor
    · intro hle
      have hge : si ≥ ei := hle
      simp [parseDescription, hs, he, hge]
    · intro hlt
      have hge : ¬ si ≥ ei := by omega
      simp [parseDescription, hs, he, hge, jsSubstring_zero_left, jsSubstring_to_len]

/-- Witness for the amended claim C4 at a concrete well-formed document. -/
theorem parseDescription_occurrence_spec_witness :
    parseDescription c4doc cexMarker =
      ⟨trimList (c4doc.take 2),
       trimList (jsSubstring c4doc (2 + (getMarkers cexMarker).start.length) 15),
       trimList (c4doc.drop (15 + (getMarkers cexMarker).stop.length))⟩ :=
  (((parseDescription_occurrence_spec c4doc cexMarker).2 2 15
      ((jsIndexOf_eq_some_iff _ _ _).mp (by decide))
      ((jsIndexOf_eq_some_iff _ _ _).mp (by decide))).2 (by omega))

/-- Claim C10: whenever `parseDescription` finds a valid start-before-end
marker pair, the returned `beforeMarker` and `afterMarker` are the
surrounding substrings with leading and trailing whitespace removed — the
trimmed, not the verbatim, surroundings. -/
theorem parseDescription_trims_surroundings (description marker : List Char)
    (h : markersWellFormed description marker = true) :
    ∃ si ei, jsIndexOf description (getMarkers marker).start = some si ∧
      jsIndexOf description (getMarkers marker).stop = some ei ∧
      (parseDescription description marker).beforeMarker =
        trimList (description.take si) ∧
      (parseDescription description marker).afterMarker =
        trimList (description.drop (ei + (getMarkers marker).stop.length)) := by
  unfold markersWellFormed at h
  cases hs : jsIndexOf description (getMarkers marker).start with
  | none => rw [hs] at h; simp at h
  | some si =>
    cases he : jsIndexOf description (getMarkers marker).stop with
    | none => rw [hs, he] at h; simp at h
    | some ei =>
      rw [hs, he] at h
      have hlt : si < ei := of_decide_eq_true h
      have hge : ¬ si ≥ ei := by omega
      refine ⟨si, ei, rfl, rfl, ?_, ?_⟩ <;>
        simp [parseDescription, hs, he, hge, jsSubstring_zero_left, jsSubstring_to_len]

/-- Witness for claim C10: the before/after regions come back trimmed
(`"U"` and `"W"`), strictly different from the verbatim surroundings
`"  U  "` and `"  W  "`. -/
theorem parseDescription_trims_surroundings_witness :
    (∃ si ei, jsIndexOf c10doc (getMarkers cexMarker).start = some si ∧
      jsIndexOf c10doc (getMarkers cexMarker).stop = some ei ∧
      (parseDescription c10doc cexMarker).beforeMarker =
        trimList (c10doc.take si) ∧
      (parseDescription c10doc cexMarker).afterMarker =
        trimList (c10doc.drop (ei + (getMarkers cexMarker).stop.length))) ∧
    (parseDescription c10doc cexMarker).beforeMarker = "U".toList ∧
    (parseDescription c10doc cexMarker).beforeMarker ≠ c10doc.take 5 :=
  ⟨parseDescription_trims_surroundings c10doc cexMarker (by decide),
   by decide, by decide⟩

lemma trimList_eq_nil_iff (s : List Char) :
    trimList s = [] ↔ ∀ c ∈ s, isJsWs c = true := by
  rw [trimList, dropTrailingWs, List.reverse_eq_nil_iff, List.dropWhile_eq_nil_iff]
  constructor
  · intro h c hc
    rw [← List.takeWhile_append_dropWhile (p := isJsWs) (l := s)] at hc
    rcases List.mem_append.mp hc with h1 | h1
    · exact List.mem_takeWhile_imp h1
    · exact h c (by simpa using h1)
  · intro h c hc
    rw [List.mem_reverse] at hc
    exact h c ((List.dropWhile_sublist isJsWs).subset hc)

lemma trimList_ne_nil_of_mem {s : List Char} {c : Char} (hc : c ∈ s)
    (hw : isJsWs c = false) : trimList s ≠ [] := by
  intro h
  have := (trimList_eq_nil_iff s).mp h c hc
  rw [hw] at this
  exact absurd this (by simp)

lemma trimList_nil : trimList [] = [] := rfl

lemma trim_wrap_ne_nil (gen marker : List Char) :
    trimList (wrapWithMarkers gen marker) ≠ [] := by
  refine trimList_ne_nil_of_mem (c := '>') ?_ (by decide)
  have h : '>' ∈ " -->".toList := by decide
  simp only [wrapWithMarkers, getMarkers, List.mem_append]
  tauto

/-- Claim C1: `smart` mode never deletes the before/after user text. With
a well-formed marker pair it replaces only the interior of the marked
block — the parsed before/after regions reappear, in order, around the
newly wrapped content (empty regions are dropped rather than padded).
Without a well-formed pair it appends the wrapped content beside the
existing content (trimmed or verbatim) or returns just the wrapped
content when the existing description is blank. -/
theorem applyUpdateMode_smart_preserves_user_text (existing gen marker : List Char) :
    (markersWellFormed existing marker = true →
      applyUpdateMode existing gen UpdateMode.smart marker =
        (if trimList (parseDescription existing marker).beforeMarker = [] then []
         else (parseDescription existing marker).beforeMarker ++ "\n\n".toList) ++
        wrapWithMarkers gen marker ++
        (if trimList (parseDescription existing marker).afterMarker = [] then []
         else "\n\n".toList ++ (parseDescription existing marker).afterMarker)) ∧
    (markersWellFormed existing marker = false →
      (if trimList existing = [] then
        applyUpdateMode existing gen UpdateMode.smart marker = wrapWithMarkers gen marker
       else
        applyUpdateMode existing gen UpdateMode.smart marker =
          trimList existing ++ "\n\n".toList ++ wrapWithMarkers gen marker ∨
        applyUpdateMode existing gen UpdateMode.smart marker =
          existing ++ "\n\n".toList ++ wrapWithMarkers gen marker)) := by
  constructor
  · intro hwf
    unfold markersWellFormed at hwf
    cases hs : jsIndexOf existing (getMarkers marker).start with
    | none => rw [hs] at hwf; simp at hwf
    | some si =>
      cases he : jsIndexOf existing (getMarkers marker).stop with
      | none => rw [hs, he] at hwf; simp at hwf
      | some ei =>
        have hgc : hasGeneratedContent existing marker = true := by
          simp [hasGeneratedContent, jsIncludes, hs, he]
        by_cases hb : trimList (parseDescription existing marker).beforeMarker = [] <;>
        by_cases ha : trimList (parseDescription existing marker).afterMarker = [] <;>
          simp [applyUpdateMode, hgc, hb, ha, joinSep, List.filter_cons,
            trim_wrap_ne_nil gen marker, List.append_assoc, List.length_pos]
  · intro hwf
    by_cases hgc : hasGeneratedContent existing marker = true
    · have hdg : parseDescription existing marker = ⟨existing, [], []⟩ := by
        unfold hasGeneratedContent jsIncludes at hgc
        rw [Bool.and_eq_true, Option.isSome_iff_exists, Option.isSome_iff_exists] at hgc
        obtain ⟨⟨si, hs⟩, ⟨ei, he⟩⟩ := hgc
        unfold markersWellFormed at hwf
        rw [hs, he] at hwf
        have hge : si ≥ ei := by
          simp at hwf
          omega
        simp [parseDescription, hs, he, hge]
      by_cases hex : trimList existing = []
      · rw [if_pos hex]
        simp [applyUpdateMode, hgc, hdg, hex, joinSep, List.filter_cons,
          trim_wrap_ne_nil gen marker, trimList_nil, List.length_pos]
      · rw [if_neg hex]
        refine Or.inr ?_
        simp [applyUpdateMode, hgc, hdg, hex, joinSep, List.filter_cons,
          trim_wrap_ne_nil gen marker, trimList_nil, List.length_pos, List.append_assoc]
    · have hgc' : hasGeneratedContent existing marker = false := by simpa using hgc
      by_cases hex : trimList existing = []
      · simp [applyUpdateMode, hgc', hex]
      · rw [if_neg hex]
        refine Or.inl ?_
        simp [applyUpdateMode, hgc', hex, List.append_assoc]

/-- Witness for claim C1, matching the spec's end-to-end scenario 2: user
notes before the marked block, with the stale generated region replaced. -/
theorem applyUpdateMode_smart_preserves_user_text_witness :
    markersWellFormed
      "User notes\n\n<!-- m -->\n\nOld\n\n<!-- m-end -->".toList cexMarker = true ∧
    applyUpdateMode "User notes\n\n<!-- m -->\n\nOld\n\n<!-- m-end -->".toList
        "New".toList UpdateMode.smart cexMarker =
      (if trimList (parseDescription
            "User notes\n\n<!-- m -->\n\nOld\n\n<!-- m-end -->".toList
            cexMarker).beforeMarker = [] then []
       else (parseDescription
            "User notes\n\n<!-- m -->\n\nOld\n\n<!-- m-end -->".toList
            cexMarker).beforeMarker ++ "\n\n".toList) ++
      wrapWithMarkers "New".toList cexMarker ++
      (if trimList (parseDescription
            "User notes\n\n<!-- m -->\n\nOld\n\n<!-- m-end -->".toList
            cexMarker).afterMarker = [] then []
       else "\n\n".toList ++ (parseDescription
            "User notes\n\n<!-- m -->\n\nOld\n\n<!-- m-end -->".toList
            cexMarker).afterMarker) :=
  ⟨by decide,
   (applyUpdateMode_smart_preserves_user_text
      "User notes\n\n<!-- m -->\n\nOld\n\n<!-- m-end -->".toList
      "New".toList cexMarker).1 (by decide)⟩

lemma trimList_pad (u s v : List Char) (hu : ∀ c ∈ u, isJsWs c = true)
    (hv : ∀ c ∈ v, isJsWs c = true) : trimList (u ++ s ++ v) = trimList s := by
  rw [trimList, trimList, List.append_assoc, dropWhile_append_of_all hu]
  by_cases hd : s.dropWhile isJsWs = []
  · have hall : ∀ c ∈ s, isJsWs c = true := List.dropWhile_eq_nil_iff.mp hd
    rw [dropWhile_append_of_all hall, List.dropWhile_eq_nil_iff.mpr hv, hd]
  · have h1 : (s ++ v).dropWhile isJsWs = s.dropWhile isJsWs ++ v := by
      rw [List.dropWhile_append, if_neg (by simpa [List.isEmpty_iff] using hd)]
    rw [h1, dropTrailingWs, dropTrailingWs, List.reverse_append,
      dropWhile_append_of_all (fun c hc => hv c (List.mem_reverse.mp hc))]

lemma mem_of_occursAt_cover {U V pat : List Char} {c : Char} {p : Nat}
    (h : occursAt (U ++ c :: V) pat p) (h1 : p ≤ U.length)
    (h2 : U.length < p + pat.length) : c ∈ pat := by
  unfold occursAt at h
  rw [List.drop_append_eq_append_drop, Nat.sub_eq_zero_of_le h1, List.drop_zero] at h
  have hlen : (U.drop p).length = U.length - p := List.length_drop _ _
  have heq := List.prefix_iff_eq_take.mp h
  rw [List.take_append_eq_append_take] at heq
  have hpos : 0 < pat.length - (U.drop p).length := by omega
  rw [heq]
  refine List.mem_append.mpr (Or.inr ?_)
  rw [List.take_cons hpos]
  exact List.mem_cons_self _ _

lemma infix_of_occursAt_inner {X R pat : List Char} {q : Nat}
    (h : occursAt (X ++ R) pat q) (hle : q + pat.length ≤ X.length) :
    pat <:+: X := by
  unfold occursAt at h
  rw [List.drop_append_eq_append_drop, Nat.sub_eq_zero_of_le (by omega), List.drop_zero] at h
  have heq := List.prefix_iff_eq_take.mp h
  rw [List.take_append_eq_append_take] at heq
  have hz : pat.length - (X.drop q).length = 0 := by
    have := List.length_drop q X
    omega
  rw [hz, List.take_zero, List.append_nil] at heq
  have hpre : pat <+: X.drop q := List.prefix_iff_eq_take.mpr heq
  exact hpre.isInfix.trans (List.drop_suffix q X).isInfix

lemma occursAt_sub {U W pat : List Char} {p : Nat} (h : occursAt (U ++ W) pat p)
    (hp : U.length ≤ p) : occursAt W pat (p - U.length) := by
  unfold occursAt at h ⊢
  rwa [List.drop_append_eq_append_drop, List.drop_of_length_le hp, List.nil_append] at h

lemma jsIndexOf_of_prefix {hay pat : List Char} (h : pat <+: hay) :
    jsIndexOf hay pat = some 0 := by
  cases hay with
  | nil => unfold jsIndexOf; rw [if_pos (List.isPrefixOf_iff_prefix.mpr h)]
  | cons c t => unfold jsIndexOf; rw [if_pos (List.isPrefixOf_iff_prefix.mpr h)]

lemma jsIndexOf_wrap_stop (S E X : List Char) (hnl : '\n' ∉ E)
    (hlen : S.length + 2 ≤ E.length) (hXE : ¬ E <:+: X) :
    jsIndexOf (S ++ "\n\n".toList ++ X ++ "\n\n".toList ++ E) E =
      some (S.length + X.length + 4) := by
  have hnl2 : "\n\n".toList = ['\n', '\n'] := by decide
  have hAlen : (S ++ "\n\n".toList ++ X ++ "\n\n".toList).length =
      S.length + X.length + 4 := by
    simp only [List.length_append, hnl2, List.length_cons, List.length_nil]
    omega
  apply (jsIndexOf_eq_some_iff E _ _).mpr
  constructor
  · show E <+: List.drop (S.length + X.length + 4)
      ((S ++ "\n\n".toList ++ X ++ "\n\n".toList) ++ E)
    rw [← hAlen, List.drop_left]
  · intro p hp hocc
    have hplt : p < S.length + X.length + 4 := hp
    by_cases hc1 : p ≤ S.length + 1
    · -- the occurrence would cover the newline at index |S| + 1
      have hd1 : S ++ "\n\n".toList ++ X ++ "\n\n".toList ++ E =
          (S ++ ['\n']) ++ '\n' :: (X ++ "\n\n".toList ++ E) := by
        simp only [hnl2]
        simp [List.append_assoc]
      rw [hd1] at hocc
      refine absurd (mem_of_occursAt_cover hocc ?_ ?_) hnl <;>
        simp only [List.length_append, List.length_cons, List.length_nil] <;> omega
    · by_cases hc2 : p + E.length ≤ S.length + X.length + 2
      · -- the occurrence would lie entirely inside X
        have hd2 : S ++ "\n\n".toList ++ X ++ "\n\n".toList ++ E =
            (S ++ "\n\n".toList) ++ (X ++ ("\n\n".toList ++ E)) := by
          simp [List.append_assoc]
        rw [hd2] at hocc
        have hq := occursAt_sub hocc
          (by simp only [List.length_append, hnl2, List.length_cons, List.length_nil]; omega)
        refine hXE (infix_of_occursAt_inner hq ?_)
        simp only [List.length_append, hnl2, List.length_cons, List.length_nil]
        omega
      · by_cases hc3 : p ≤ S.length + X.length + 2
        · -- the occurrence would cover the newline at index |A| - 2
          have hd3 : S ++ "\n\n".toList ++ X ++ "\n\n".toList ++ E =
              (S ++ "\n\n".toList ++ X) ++ '\n' :: ('\n' :: E) := by
            simp only [hnl2]
            simp [List.append_assoc]
          rw [hd3] at hocc
          refine absurd (mem_of_occursAt_cover hocc ?_ ?_) hnl <;>
            simp only [List.length_append, hnl2, List.length_cons, List.length_nil] <;>
            omega
        · -- p = |A| - 1 : the occurrence covers the newline at index |A| - 1
          have hd4 : S ++ "\n\n".toList ++ X ++ "\n\n".toList ++ E =
              (S ++ "\n\n".toList ++ X ++ ['\n']) ++ '\n' :: E := by
            simp only [hnl2]
            simp [List.append_assoc]
          rw [hd4] at hocc
          refine absurd (mem_of_occursAt_cover hocc ?_ ?_) hnl <;>
            simp only [List.length_append, hnl2, List.length_cons, List.length_nil] <;>
            omega

/-- Claim C2 (round-trip law): for every string `X` that does not contain
the derived marker delimiters and every valid base marker, parsing the
wrapped content recovers `X` up to trimming of leading and trailing
whitespace. -/
theorem parse_wrap_roundtrip (X marker : List Char) (hm : validBaseMarker marker)
    (hstart : ¬ (getMarkers marker).start <:+: X)
    (hstop : ¬ (getMarkers marker).stop <:+: X) :
    (parseDescription (wrapWithMarkers X marker) marker).generatedContent = trimList X := by
  obtain ⟨name, rfl, h1, h2⟩ := hm
  have hmk := getMarkers_valid name h1 h2
  rw [hmk] at hstop
  have hmo : markerOpen.length = 5 := by decide
  have hmc : markerClose.length = 4 := by decide
  have hes : endSuffixFull.length = 8 := by decide
  have hnl2 : "\n\n".toList = ['\n', '\n'] := by decide
  have hnlE : '\n' ∉ markerOpen ++ name ++ endSuffixFull := by
    intro hmem
    rcases List.mem_append.mp hmem with hmem | hmem
    · rcases List.mem_append.mp hmem with hmem | hmem
      · exact absurd hmem (by decide)
      · exact absurd (h2 '\n' hmem) (by decide)
    · exact absurd hmem (by decide)
  have hlenSE : (markerOpen ++ name ++ markerClose).length + 2 ≤
      (markerOpen ++ name ++ endSuffixFull).length := by
    simp only [List.length_append, hmo, hmc, hes]
    omega
  have hW : wrapWithMarkers X (markerOpen ++ name ++ markerClose) =
      (markerOpen ++ name ++ markerClose) ++ "\n\n".toList ++ X ++ "\n\n".toList ++
        (markerOpen ++ name ++ endSuffixFull) := by
    rw [wrapWithMarkers, hmk]
  have hidxE : jsIndexOf (wrapWithMarkers X (markerOpen ++ name ++ markerClose))
      (markerOpen ++ name ++ endSuffixFull) =
      some ((markerOpen ++ name ++ markerClose).length + X.length + 4) := by
    rw [hW]
    exact jsIndexOf_wrap_stop _ _ _ hnlE hlenSE hstop
  have hidxS : jsIndexOf (wrapWithMarkers X (markerOpen ++ name ++ markerClose))
      (markerOpen ++ name ++ markerClose) = some 0 := by
    rw [hW]
    refine jsIndexOf_of_prefix ⟨"\n\n".toList ++ X ++ "\n\n".toList ++
      (markerOpen ++ name ++ endSuffixFull), ?_⟩
    simp [List.append_assoc]
  have hge : ¬ ((0 : Nat) ≥ (markerOpen ++ name ++ markerClose).length + X.length + 4) := by
    omega
  have hsub : jsSubstring (wrapWithMarkers X (markerOpen ++ name ++ markerClose))
      (0 + (markerOpen ++ name ++ markerClose).length)
      ((markerOpen ++ name ++ markerClose).length + X.length + 4) =
      "\n\n".toList ++ X ++ "\n\n".toList := by
    rw [hW, Nat.zero_add]
    have hAlen : ((markerOpen ++ name ++ markerClose) ++ "\n\n".toList ++ X ++
        "\n\n".toList).length = (markerOpen ++ name ++ markerClose).length + X.length + 4 := by
      simp only [List.length_append, hnl2, List.length_cons, List.length_nil]
      omega
    have hWlen : ((markerOpen ++ name ++ markerClose) ++ "\n\n".toList ++ X ++
        "\n\n".toList ++ (markerOpen ++ name ++ endSuffixFull)).length =
        (markerOpen ++ name ++ markerClose).length + X.length + 4 +
          (markerOpen ++ name ++ endSuffixFull).length := by
      simp only [List.length_append, hnl2, List.length_cons, List.length_nil]
      omega
    show (((markerOpen ++ name ++ markerClose) ++ "\n\n".toList ++ X ++ "\n\n".toList ++
        (markerOpen ++ name ++ endSuffixFull)).take _).drop _ = _
    rw [hWlen]
    rw [Nat.min_eq_left (by omega), Nat.min_eq_left (by omega),
      Nat.max_eq_right (by omega), Nat.min_eq_left (by omega)]
    rw [← hAlen, List.take_left]
    have hassoc : (markerOpen ++ name ++ markerClose) ++ "\n\n".toList ++ X ++
        "\n\n".toList = (markerOpen ++ name ++ markerClose) ++
          ("\n\n".toList ++ X ++ "\n\n".toList) := by
      simp [List.append_assoc]
    rw [hassoc, List.drop_left]
  simp only [parseDescription, hmk, hidxS, hidxE, if_neg hge, hsub]
  exact trimList_pad _ _ _ (by decide) (by decide)

/-- Witness for claim C2 at the default marker and content
`"Hello World"`. -/
theorem parse_wrap_roundtrip_witness :
    (parseDescription (wrapWithMarkers "Hello World".toList DEFAULT_MARKER)
        DEFAULT_MARKER).generatedContent = trimList "Hello World".toList :=
  parse_wrap_roundtrip "Hello World".toList DEFAULT_MARKER
    ⟨"gemini-pr-description".toList, by decide, by decide, by decide⟩
    (fun h => absurd h.length_le (by decide))
    (fun h => absurd h.length_le (by decide))
